import Mathlib

/-!
Verification of the `VA_OPT` polyfill (`src/va_opt.h`).

The program is a set of C preprocessor macros that decide, at expansion
time, whether a variadic argument list is empty, and conditionally emit a
payload.  We shallowly embed the relevant preprocessor fragment:

* `Tok` is a lexical token; a token list is a `List Tok` (whitespace and
  comments do not produce tokens, so "whitespace/comments only" is `[]`).
* `expandSeq` is the macro-expansion scanner: left to right, a
  function-like macro name is invoked only when immediately followed by
  `(`; the replacement is pushed back and rescanned together with the
  remaining tokens (so a name produced by one expansion can consume a
  following parenthesis group, but tokens already emitted are final).
  An invocation with the wrong number of arguments is a compile-time
  error, modelled as `none`.  None of the macros in the modelled
  environment mention their parameters in their replacement lists, so
  substitution is the constant replacement list.
* Each `NTRNLVA_*` macro and each public `VA_*` macro of the header is a
  Lean function over this token model, one per selected strategy
  (native `__VA_OPT__`, GNU comma elision, MSVC comma elision, C99).
-/

set_option maxRecDepth 4000

namespace VAOpt

/-- Lexical token of the preprocessor fragment: identifiers (also used for
number tokens such as `0` and `1`), string literals (non-pasteable),
other punctuation (such as `+` or `~`), and the three structural tokens
the classifier inspects. -/
inductive Tok where
  | ident (s : String)
  | str (s : String)
  | punct (s : String)
  | lparen
  | rparen
  | comma
deriving DecidableEq, Repr

/-- Macro definition: object-like with a replacement list, or
function-like with a number of named parameters, a variadic flag, and a
replacement list.  Replacement lists are constant token lists because no
macro modelled here mentions its parameters in its replacement. -/
inductive MacroDef where
  | obj (repl : List Tok)
  | fn (np : Nat) (variadic : Bool) (repl : List Tok)
deriving DecidableEq, Repr

/-- Macro environment lookup by name. -/
def envLookup (env : List (String × MacroDef)) (s : String) : Option MacroDef :=
  match env with
  | [] => none
  | (n, d) :: rest => if n = s then some d else envLookup rest s

/-- Parenthesis-depth update used when scanning for top-level commas. -/
def newDepth (t : Tok) (d : Nat) : Nat :=
  match t with
  | Tok.lparen => d + 1
  | Tok.rparen => d - 1
  | _ => d

/-- Split a token sequence at its top-level commas (depth `d` is the
current parenthesis nesting).  Returns the first piece and the remaining
pieces; an empty sequence yields one empty piece, matching the C rule
that a macro invoked with no tokens receives one empty argument. -/
def splitTopAux : List Tok → Nat → List Tok × List (List Tok)
  | [], _ => ([], [])
  | Tok.comma :: ts, 0 =>
    let p := splitTopAux ts 0
    ([], p.1 :: p.2)
  | t :: ts, d =>
    let p := splitTopAux ts (newDepth t d)
    (t :: p.1, p.2)

/-- Argument list of a macro invocation: the comma-separated pieces of
the token sequence between the parentheses. -/
def splitTop (ts : List Tok) : List (List Tok) :=
  let p := splitTopAux ts 0
  p.1 :: p.2

/-- Scan to the parenthesis that closes the current group (depth `d`
counts extra open parentheses); return the tokens before it and after
it.  `none` means the group never closes. -/
def splitAtClose : List Tok → Nat → Option (List Tok × List Tok)
  | [], _ => none
  | Tok.rparen :: ts, 0 => some ([], ts)
  | Tok.rparen :: ts, d + 1 =>
    (splitAtClose ts d).map fun p => (Tok.rparen :: p.1, p.2)
  | Tok.lparen :: ts, d =>
    (splitAtClose ts (d + 1)).map fun p => (Tok.lparen :: p.1, p.2)
  | t :: ts, d => (splitAtClose ts d).map fun p => (t :: p.1, p.2)

/-- Strip one leading parenthesized group, as one application of the
`NTRNLVA_IS_SENTINEL` chain does. -/
def stripGroup : List Tok → Option (List Tok)
  | Tok.lparen :: rest => (splitAtClose rest 0).map fun p => p.2
  | _ => none

/-- Token form of `NTRNLVA_SENTINEL_`, which expands to three empty
parenthesis pairs `()()()` (line 192). -/
def sentinelToks : List Tok :=
  [Tok.lparen, Tok.rparen, Tok.lparen, Tok.rparen, Tok.lparen, Tok.rparen]

/-- The macro `NTRNLVA_CHECK_SENTINEL(x)` (lines 190-197): the
`NTRNLVA_IS_SENTINEL` / `IS_SENTINEL1` / `IS_SENTINEL2` chain strips
three leading parenthesized groups, leaving `()` followed by the rest
exactly when `x` starts with three groups, and a bare identifier
otherwise; `NTRNLVA_IS_PAREN` then reports 1 or 0 accordingly. -/
def NTRNLVA_CHECK_SENTINEL (x : List Tok) : Nat :=
  match ((stripGroup x).bind stripGroup).bind stripGroup with
  | some _ => 1
  | none => 0

/-- The token `0` appended as the last fallback slot in
`NTRNLVA_HAS_COMMA`. -/
def zeroTok : Tok := Tok.ident "0"

/-- The name token of `NTRNLVA_TRIGGER_PARENTHESIS_` (line 262). -/
def trigTok : Tok := Tok.ident "NTRNLVA_TRIGGER_PARENTHESIS_"

/-- Whether an invocation with the given (raw, comma-split) arguments is
well formed for a macro with `np` named parameters.  A macro with zero
named parameters accepts exactly the single empty argument produced by
`()`; a fixed-arity macro needs exactly `np` arguments; a variadic macro
accepts any count not below its named-parameter count. -/
def arityOk (np : Nat) (variadic : Bool) (args : List (List Tok)) : Bool :=
  if variadic then decide (np ≤ args.length)
  else if np = 0 then decide (args = [[]])
  else decide (args.length = np)

/-- One-pass macro expansion of a token sequence (fuel-bounded).  A
function-like macro name is invoked only when the next token is `(`; its
raw arguments are collected up to the matching `)` and discarded (no
modelled macro uses them), the arity is checked (`none` on mismatch, the
compile error), and the replacement is rescanned together with the rest.
An uninvoked macro name is emitted like any other token. -/
def expandSeq (env : List (String × MacroDef)) : Nat → List Tok → Option (List Tok)
  | 0, _ => none
  | _ + 1, [] => some []
  | f + 1, Tok.ident s :: Tok.lparen :: rest =>
    match envLookup env s with
    | some (MacroDef.obj repl) => expandSeq env f (repl ++ Tok.lparen :: rest)
    | some (MacroDef.fn np variadic repl) =>
      match splitAtClose rest 0 with
      | some pr =>
        if arityOk np variadic (splitTop pr.1) then expandSeq env f (repl ++ pr.2)
        else none
      | none => none
    | none => (expandSeq env f (Tok.lparen :: rest)).map fun r => Tok.ident s :: r
  | f + 1, Tok.ident s :: ts =>
    match envLookup env s with
    | some (MacroDef.obj repl) => expandSeq env f (repl ++ ts)
    | _ => (expandSeq env f ts).map fun r => Tok.ident s :: r
  | f + 1, t :: ts => (expandSeq env f ts).map fun r => t :: r

/-- Fuel that is always sufficient for the token sequences this
development evaluates. -/
def fuelOf (s : List Tok) : Nat := s.length + 65

/-- The macro `NTRNLVA_HAS_COMMA(...)` (lines 252-261): expand the
argument tokens, append the two fallback arguments `NTRNLVA_SENTINEL_`
and `0`, select the third argument slot with `NTRNLVA_SEL3_I`, and
normalize it with `NTRNLVA_CHECK_SENTINEL`. -/
def NTRNLVA_HAS_COMMA (env : List (String × MacroDef)) (s : List Tok) : Option Nat :=
  (expandSeq env (fuelOf s) s).map fun e =>
    NTRNLVA_CHECK_SENTINEL ((splitTop e ++ [sentinelToks, [zeroTok]]).getD 2 [])

/-- Digit character pasted by `NTRNLVA_PASTE5` for a probe result. -/
def bitStr (n : Nat) : String := if n = 0 then "0" else "1"

/-- The token built by
`NTRNLVA_PASTE5(NTRNLVA_IS_EMPTY_CASE_, _0, _1, _2, _3)` (lines
285-287). -/
def pasteCase (p1 p2 p3 p4 : Nat) : Tok :=
  Tok.ident ("NTRNLVA_IS_EMPTY_CASE_" ++ bitStr p1 ++ bitStr p2 ++ bitStr p3 ++ bitStr p4)

/-- The reduction step `NTRNLVA_ISEMPTY_BASE_I` (lines 286-288): paste
the four probe results onto `NTRNLVA_IS_EMPTY_CASE_` and apply
`NTRNLVA_HAS_COMMA` to the resulting single token.  Exactly
`NTRNLVA_IS_EMPTY_CASE_0001` is defined (as a comma, line 288). -/
def NTRNLVA_ISEMPTY_BASE_I (env : List (String × MacroDef)) (p1 p2 p3 p4 : Nat) : Option Nat :=
  NTRNLVA_HAS_COMMA env [pasteCase p1 p2 p3 p4]

/-- The macro `NTRNLVA_ISEMPTY_BASE(...)` (lines 264-283): the four
comma probes of the Jens Gustedt construction, reduced through
`NTRNLVA_ISEMPTY_BASE_I`. -/
def NTRNLVA_ISEMPTY_BASE (env : List (String × MacroDef)) (x : List Tok) : Option Nat := do
  let p1 ← NTRNLVA_HAS_COMMA env x
  let p2 ← NTRNLVA_HAS_COMMA env (trigTok :: x)
  let p3 ← NTRNLVA_HAS_COMMA env (x ++ [Tok.lparen, Tok.rparen])
  let p4 ← NTRNLVA_HAS_COMMA env (trigTok :: (x ++ [Tok.lparen, Tok.rparen]))
  NTRNLVA_ISEMPTY_BASE_I env p1 p2 p3 p4

/-- The macro `NTRNLVA_AND(x)(y)` (lines 168-170): pasting dispatch,
defined only for `x` in `{0,1}`. -/
def NTRNLVA_AND (x y : Nat) : Option Nat :=
  if x = 0 then some 0 else if x = 1 then some y else none

/-- The macro `NTRNLVA_COMPL(b)` (lines 183-185): pasting dispatch,
defined only for `b` in `{0,1}`. -/
def NTRNLVA_COMPL (b : Nat) : Option Nat :=
  if b = 0 then some 1 else if b = 1 then some 0 else none

/-- The four implementation strategies selected at lines 72-129. -/
inductive Strategy where
  | native
  | gnu
  | msvc
  | c99
deriving DecidableEq, Repr

/-- The probe `__VA_OPT__(1)` of the native implementation: emits `1`
exactly when the argument list is nonempty. -/
def vaOptProbe (L : List Tok) : List Tok :=
  if L = [] then [] else [Tok.ident "1"]

/-- Dispatch `NTRNLVA_ISEMPTY_I` of the native path (lines 201-204):
paste the probe onto `NTRNLVA_ISEMPTY_I0`. -/
def NTRNLVA_ISEMPTY_I_NAT (x : List Tok) : Option Nat :=
  if x = [] then some 1 else if x = [Tok.ident "1"] then some 0 else none

/-- Dispatch `NTRNLVA_NOTEMPTY_I` of the native path (lines 206-209). -/
def NTRNLVA_NOTEMPTY_I_NAT (x : List Tok) : Option Nat :=
  if x = [] then some 0 else if x = [Tok.ident "1"] then some 1 else none

/-- `VA_ISEMPTY` under the native strategy (line 204). -/
def VA_ISEMPTY_NATIVE (L : List Tok) : Option Nat :=
  NTRNLVA_ISEMPTY_I_NAT (vaOptProbe L)

/-- `VA_ISEMPTY` under the GNU strategy (lines 211-214): the arguments
are expanded on the way into `NTRNLVA_ISEMPTY_INDIRECT`; in
`NTRNLVA_ISEMPTY_I(,##__VA_ARGS__, 0, NTRNLVA_SENTINEL_)` the GNU
`,##` elision deletes the leading comma exactly when the expanded list
is empty, and the third argument slot is checked against the
sentinel. -/
def VA_ISEMPTY_GNU (env : List (String × MacroDef)) (L : List Tok) : Option Nat :=
  (expandSeq env (fuelOf L) L).map fun e =>
    let slots :=
      if e = [] then [[], [zeroTok], sentinelToks]
      else [] :: splitTop e ++ [[zeroTok], sentinelToks]
    NTRNLVA_CHECK_SENTINEL (slots.getD 2 [])

/-- `VA_ISEMPTY` under the MSVC strategy (lines 216-220): the deferred
`NTRNLVA_ISEMPTY_I NTRNLVA_EMPTY()(,__VA_ARGS__, 0, NTRNLVA_SENTINEL_)`
relies on the traditional-preprocessor comma elision ahead of an empty
`__VA_ARGS__`; the resulting argument slots are the same as on the GNU
path. -/
def VA_ISEMPTY_MSVC (env : List (String × MacroDef)) (L : List Tok) : Option Nat :=
  (expandSeq env (fuelOf L) L).map fun e =>
    let slots :=
      if e = [] then [[], [zeroTok], sentinelToks]
      else [] :: splitTop e ++ [[zeroTok], sentinelToks]
    NTRNLVA_CHECK_SENTINEL (slots.getD 2 [])

/-- `VA_ISEMPTY` under the portable C99 strategy (lines 224-227):
`NTRNLVA_ISEMPTY_I(__VA_ARGS__, NTRNLVA_SENTINEL_)` computes
`NTRNLVA_AND(NTRNLVA_ISEMPTY_BASE(first slot))(NTRNLVA_CHECK_SENTINEL(second slot))`. -/
def VA_ISEMPTY_C99 (env : List (String × MacroDef)) (L : List Tok) : Option Nat := do
  let e ← expandSeq env (fuelOf L) L
  let ext := splitTop e ++ [sentinelToks]
  let b ← NTRNLVA_ISEMPTY_BASE env (ext.getD 0 [])
  NTRNLVA_AND b (NTRNLVA_CHECK_SENTINEL (ext.getD 1 []))

/-- `VA_ISEMPTY(...)` as compiled under each strategy (lines 199-290). -/
def VA_ISEMPTY (env : List (String × MacroDef)) : Strategy → List Tok → Option Nat
  | Strategy.native, L => VA_ISEMPTY_NATIVE L
  | Strategy.gnu, L => VA_ISEMPTY_GNU env L
  | Strategy.msvc, L => VA_ISEMPTY_MSVC env L
  | Strategy.c99, L => VA_ISEMPTY_C99 env L

/-- `VA_NOTEMPTY(...)` (lines 206-209, 215, 221, 228): its own
`__VA_OPT__` dispatch on the native path, `NTRNLVA_COMPL(VA_ISEMPTY(...))`
on the other three. -/
def VA_NOTEMPTY (env : List (String × MacroDef)) : Strategy → List Tok → Option Nat
  | Strategy.native, L => NTRNLVA_NOTEMPTY_I_NAT (vaOptProbe L)
  | s, L => (VA_ISEMPTY env s L).bind NTRNLVA_COMPL

/-- The macro `NTRNLVA_UP(x)` (lines 190-191): unwrap one layer of
parentheses; anything not shaped `( ... )` leaves `NTRNLVA_UP_I`
uninvoked, which never yields a classification, modelled as `none`. -/
def NTRNLVA_UP (ts : List Tok) : Option (List Tok) :=
  match ts with
  | Tok.lparen :: rest =>
    match splitAtClose rest 0 with
    | some p => if p.2 = [] then some p.1 else none
    | none => none
  | _ => none

/-- The dispatch `NTRNLVA_OPT_IMPL(opt, ...)` (lines 341-344):
`NTRNLVA_OPT_IMPL_0` re-emits the payload unchanged,
`NTRNLVA_OPT_IMPL_1` discards it; the paste is defined only for `opt`
in `{0,1}`. -/
def NTRNLVA_OPT_IMPL (opt : Nat) (payload : List Tok) : Option (List Tok) :=
  if opt = 0 then some payload else if opt = 1 then some [] else none

/-- `VA_NOPT(args, ...)` (lines 353-354): emit the payload exactly when
the unwrapped guard list is classified empty, under the selected
strategy. -/
def VA_NOPT (env : List (String × MacroDef)) (s : Strategy) (args payload : List Tok) :
    Option (List Tok) := do
  let g ← NTRNLVA_UP args
  let b ← VA_NOTEMPTY env s g
  NTRNLVA_OPT_IMPL b payload

/-- The macro environment visible to the classifier: the internal
macros `NTRNLVA_TRIGGER_PARENTHESIS_` (line 262) and
`NTRNLVA_IS_EMPTY_CASE_0001` (line 288), and the caller-side test
macros of lines 293-305.  `MAC0C` is the zero-argument macro of the spec table
macro that expands to a bare comma (the source corpus covers the
parenthesis-expanding `MAC0`; the comma-expanding sibling is added to
exercise the same spec row). -/
def vaEnv : List (String × MacroDef) :=
  [("NTRNLVA_TRIGGER_PARENTHESIS_", MacroDef.fn 0 true [Tok.comma]),
   ("NTRNLVA_IS_EMPTY_CASE_0001", MacroDef.obj [Tok.comma]),
   ("EATER0", MacroDef.fn 0 true []),
   ("EATER1", MacroDef.fn 0 true [Tok.comma]),
   ("EATER2", MacroDef.fn 0 true [Tok.lparen, Tok.rparen]),
   ("EATER3", MacroDef.fn 0 true [Tok.lparen, Tok.rparen, Tok.comma]),
   ("EATER4", MacroDef.fn 0 true [Tok.ident "EATER1"]),
   ("EATER5", MacroDef.fn 0 true [Tok.ident "EATER2"]),
   ("MAC0", MacroDef.fn 0 false [Tok.lparen, Tok.rparen]),
   ("MAC0C", MacroDef.fn 0 false [Tok.comma]),
   ("MAC1", MacroDef.fn 1 false [Tok.lparen, Tok.rparen]),
   ("MACV", MacroDef.fn 0 true [Tok.lparen, Tok.rparen]),
   ("MACMANYPLUS", MacroDef.fn 0 true
     [Tok.punct "+", Tok.comma, Tok.punct "+", Tok.comma, Tok.punct "+", Tok.comma,
      Tok.punct "+", Tok.comma, Tok.punct "+", Tok.comma, Tok.punct "+", Tok.comma,
      Tok.punct "+", Tok.comma, Tok.punct "+", Tok.comma, Tok.punct "+", Tok.comma,
      Tok.punct "+", Tok.comma, Tok.punct "+", Tok.comma, Tok.punct "+", Tok.comma,
      Tok.punct "+", Tok.comma, Tok.punct "+", Tok.comma, Tok.punct "+", Tok.comma,
      Tok.punct "+", Tok.comma, Tok.punct "+", Tok.comma, Tok.punct "+", Tok.comma,
      Tok.punct "+"]),
   ("MAC2", MacroDef.fn 2 false [Tok.ident "whatever"])]

/-- Join a list of invocation arguments back into the raw comma-separated
token list between the parentheses of the invocation. -/
def joinArgs : List (List Tok) → List Tok
  | [] => []
  | [a] => a
  | a :: rest => a ++ Tok.comma :: joinArgs rest

/-! ## The caller-side input domain

`Bal` is parenthesis balance.  `ArgToks env a` says the token sequence
`a` is one plausible caller-written invocation argument over the macro
environment `env`: no top-level comma (it is one argument), balanced
parenthesized groups, and no macro names outside groups (a macro name
passed as an argument is treated separately, as the corpus does).
`Calm env ts` says scanning `ts` expands no macro, so expansion is the
identity on it. -/

/-- Balanced token sequences. -/
inductive Bal : List Tok → Prop
  | nil : Bal []
  | tok : ∀ t ts, t ≠ Tok.lparen → t ≠ Tok.rparen → Bal ts → Bal (t :: ts)
  | grp : ∀ g ts, Bal g → Bal ts → Bal (Tok.lparen :: (g ++ Tok.rparen :: ts))

/-- No identifier token of `ts` names a macro of `env`. -/
def PlainL (env : List (String × MacroDef)) (ts : List Tok) : Prop :=
  ∀ s, Tok.ident s ∈ ts → envLookup env s = none

/-- A single token that is not a macro name. -/
def PlainT (env : List (String × MacroDef)) (t : Tok) : Prop :=
  ∀ s, t = Tok.ident s → envLookup env s = none

/-- A plausible caller-written invocation argument: identifiers that are
not macro names, string literals, punctuation, and balanced
macro-name-free parenthesized groups, in any sequence, with no
top-level comma. -/
inductive ArgToks (env : List (String × MacroDef)) : List Tok → Prop
  | nil : ArgToks env []
  | id : ∀ s ts, envLookup env s = none → ArgToks env ts → ArgToks env (Tok.ident s :: ts)
  | lit : ∀ s ts, ArgToks env ts → ArgToks env (Tok.str s :: ts)
  | pu : ∀ s ts, ArgToks env ts → ArgToks env (Tok.punct s :: ts)
  | grp : ∀ g ts, Bal g → PlainL env g → ArgToks env ts →
      ArgToks env (Tok.lparen :: (g ++ Tok.rparen :: ts))

/-- The sequence does not begin with `(`. -/
def headNotLP : List Tok → Prop
  | Tok.lparen :: _ => False
  | _ => True

/-- Token sequences on which the expansion scanner makes no replacement:
every token is either not a macro name, or a function-like macro name
not followed by `(`. -/
inductive Calm (env : List (String × MacroDef)) : List Tok → Prop
  | nil : Calm env []
  | plain : ∀ t ts, PlainT env t → Calm env ts → Calm env (t :: ts)
  | fname : ∀ s np variadic repl ts,
      envLookup env s = some (MacroDef.fn np variadic repl) →
      headNotLP ts → Calm env ts → Calm env (Tok.ident s :: ts)

/-- Names of the corpus macros whose bare name the portable strategy
accepts as a classification candidate (every corpus macro except
`MAC2`, whose two fixed parameters make the `x()` probe malformed). -/
def c99Names : List String :=
  ["NTRNLVA_TRIGGER_PARENTHESIS_", "EATER0", "EATER1", "EATER2", "EATER3",
   "EATER4", "EATER5", "MAC0", "MAC0C", "MAC1", "MACV", "MACMANYPLUS"]

/-- Admissible single argument: a plausible caller-written argument
(`ArgToks`) or the bare name of a corpus macro the portable strategy
accepts. -/
def AdmArg (a : List Tok) : Prop :=
  ArgToks vaEnv a ∨ ∃ s ∈ c99Names, a = [Tok.ident s]

/-- A token sequence that begins with three parenthesized groups: the
lexical shape that `NTRNLVA_CHECK_SENTINEL` reacts to. -/
def ThreeLeadGroups (x : List Tok) : Prop :=
  ∃ g1 g2 g3 rest, x = Tok.lparen :: (g1 ++ Tok.rparen ::
    (Tok.lparen :: (g2 ++ Tok.rparen :: (Tok.lparen :: (g3 ++ Tok.rparen :: rest)))))

/-! ## Step lemmas for the scanning functions -/

theorem newDepth_ident : newDepth (Tok.ident s) d = d := rfl

theorem sta_ident : splitTopAux (Tok.ident s :: ts) d =
    (Tok.ident s :: (splitTopAux ts d).1, (splitTopAux ts d).2) := rfl

theorem sta_str : splitTopAux (Tok.str s :: ts) d =
    (Tok.str s :: (splitTopAux ts d).1, (splitTopAux ts d).2) := rfl

theorem sta_punct : splitTopAux (Tok.punct s :: ts) d =
    (Tok.punct s :: (splitTopAux ts d).1, (splitTopAux ts d).2) := rfl

theorem sta_lp : splitTopAux (Tok.lparen :: ts) d =
    (Tok.lparen :: (splitTopAux ts (d + 1)).1, (splitTopAux ts (d + 1)).2) := rfl

theorem sta_rp : splitTopAux (Tok.rparen :: ts) d =
    (Tok.rparen :: (splitTopAux ts (d - 1)).1, (splitTopAux ts (d - 1)).2) := rfl

theorem sta_comma0 : splitTopAux (Tok.comma :: ts) 0 =
    ([], (splitTopAux ts 0).1 :: (splitTopAux ts 0).2) := rfl

theorem sta_commaS : splitTopAux (Tok.comma :: ts) (d + 1) =
    (Tok.comma :: (splitTopAux ts (d + 1)).1, (splitTopAux ts (d + 1)).2) := rfl

theorem sta_nil : splitTopAux [] d = ([], []) := rfl

theorem sac_ident : splitAtClose (Tok.ident s :: ts) d =
    (splitAtClose ts d).map (fun p => (Tok.ident s :: p.1, p.2)) := rfl

theorem sac_str : splitAtClose (Tok.str s :: ts) d =
    (splitAtClose ts d).map (fun p => (Tok.str s :: p.1, p.2)) := rfl

theorem sac_punct : splitAtClose (Tok.punct s :: ts) d =
    (splitAtClose ts d).map (fun p => (Tok.punct s :: p.1, p.2)) := rfl

theorem sac_comma : splitAtClose (Tok.comma :: ts) d =
    (splitAtClose ts d).map (fun p => (Tok.comma :: p.1, p.2)) := rfl

theorem sac_lp : splitAtClose (Tok.lparen :: ts) d =
    (splitAtClose ts (d + 1)).map (fun p => (Tok.lparen :: p.1, p.2)) := rfl

theorem sac_rp0 : splitAtClose (Tok.rparen :: ts) 0 = some ([], ts) := rfl

theorem sac_rpS : splitAtClose (Tok.rparen :: ts) (d + 1) =
    (splitAtClose ts d).map (fun p => (Tok.rparen :: p.1, p.2)) := rfl

/-- Any successful `splitAtClose` is a decomposition of its input. -/
theorem sac_decomp : ∀ ts d g rest, splitAtClose ts d = some (g, rest) →
    ts = g ++ Tok.rparen :: rest := by
  intro ts
  induction ts with
  | nil => intro d g rest h; simp [splitAtClose] at h
  | cons t ts ih =>
    intro d g rest h
    cases t with
    | ident s =>
      rw [sac_ident] at h
      cases hsac : splitAtClose ts d with
      | none => rw [hsac] at h; simp at h
      | some p =>
        rw [hsac] at h
        simp at h
        obtain ⟨h1, h2⟩ := h
        subst h1 h2
        simpa using ih d p.1 p.2 hsac
    | str s =>
      rw [sac_str] at h
      cases hsac : splitAtClose ts d with
      | none => rw [hsac] at h; simp at h
      | some p =>
        rw [hsac] at h
        simp at h
        obtain ⟨h1, h2⟩ := h
        subst h1 h2
        simpa using ih d p.1 p.2 hsac
    | punct s =>
      rw [sac_punct] at h
      cases hsac : splitAtClose ts d with
      | none => rw [hsac] at h; simp at h
      | some p =>
        rw [hsac] at h
        simp at h
        obtain ⟨h1, h2⟩ := h
        subst h1 h2
        simpa using ih d p.1 p.2 hsac
    | comma =>
      rw [sac_comma] at h
      cases hsac : splitAtClose ts d with
      | none => rw [hsac] at h; simp at h
      | some p =>
        rw [hsac] at h
        simp at h
        obtain ⟨h1, h2⟩ := h
        subst h1 h2
        simpa using ih d p.1 p.2 hsac
    | lparen =>
      rw [sac_lp] at h
      cases hsac : splitAtClose ts (d + 1) with
      | none => rw [hsac] at h; simp at h
      | some p =>
        rw [hsac] at h
        simp at h
        obtain ⟨h1, h2⟩ := h
        subst h1 h2
        simpa using ih (d + 1) p.1 p.2 hsac
    | rparen =>
      cases d with
      | zero =>
        rw [sac_rp0] at h
        simp at h
        obtain ⟨h1, h2⟩ := h
        subst h1 h2
        simp
      | succ d =>
        rw [sac_rpS] at h
        cases hsac : splitAtClose ts d with
        | none => rw [hsac] at h; simp at h
        | some p =>
          rw [hsac] at h
          simp at h
          obtain ⟨h1, h2⟩ := h
          subst h1 h2
          simpa using ih d p.1 p.2 hsac

attribute [simp] sta_ident sta_str sta_punct sta_lp sta_rp sta_comma0 sta_commaS sta_nil
attribute [simp] sac_ident sac_str sac_punct sac_comma sac_lp sac_rp0 sac_rpS

/-- Scanning for a closing parenthesis passes over a balanced prefix:
at positive depth the closer of the prefix only decrements the depth. -/
theorem bal_sacS (h : Bal g) : ∀ d rest, splitAtClose (g ++ Tok.rparen :: rest) (d + 1) =
    (splitAtClose rest d).map (fun p => (g ++ Tok.rparen :: p.1, p.2)) := by
  induction h with
  | nil =>
    intro d rest
    cases hsac : splitAtClose rest d <;> simp [hsac]
  | tok t ts hlp hrp hb ih =>
    intro d rest
    cases t with
    | lparen => exact absurd rfl hlp
    | rparen => exact absurd rfl hrp
    | ident s => cases hsac : splitAtClose rest d <;> simp [hsac, ih d rest]
    | str s => cases hsac : splitAtClose rest d <;> simp [hsac, ih d rest]
    | punct s => cases hsac : splitAtClose rest d <;> simp [hsac, ih d rest]
    | comma => cases hsac : splitAtClose rest d <;> simp [hsac, ih d rest]
  | grp g1 ts hg hts ihg ihts =>
    intro d rest
    have ha : (Tok.lparen :: (g1 ++ Tok.rparen :: ts)) ++ Tok.rparen :: rest
        = Tok.lparen :: (g1 ++ Tok.rparen :: (ts ++ Tok.rparen :: rest)) := by simp
    rw [ha, sac_lp, ihg (d + 1) (ts ++ Tok.rparen :: rest), ihts d rest]
    cases hsac : splitAtClose rest d <;> simp [hsac]

/-- Scanning for a closing parenthesis at depth 0 stops exactly at the
closer that follows a balanced prefix. -/
theorem bal_sac0 (h : Bal g) : ∀ rest, splitAtClose (g ++ Tok.rparen :: rest) 0 =
    some (g, rest) := by
  induction h with
  | nil => intro rest; simp
  | tok t ts hlp hrp hb ih =>
    intro rest
    cases t <;> simp_all [ih rest]
  | grp g1 ts hg hts ihg ihts =>
    intro rest
    have ha : (Tok.lparen :: (g1 ++ Tok.rparen :: ts)) ++ Tok.rparen :: rest
        = Tok.lparen :: (g1 ++ Tok.rparen :: (ts ++ Tok.rparen :: rest)) := by simp
    rw [ha, sac_lp, bal_sacS hg 0 (ts ++ Tok.rparen :: rest), ihts rest]
    simp

/-- Top-level comma splitting passes over a balanced parenthesized
prefix at positive depth without splitting. -/
theorem bal_staS (h : Bal g) : ∀ d rest, splitTopAux (g ++ Tok.rparen :: rest) (d + 1) =
    (g ++ Tok.rparen :: (splitTopAux rest d).1, (splitTopAux rest d).2) := by
  induction h with
  | nil => intro d rest; simp
  | tok t ts hlp hrp hb ih =>
    intro d rest
    cases t <;> simp_all [ih d rest]
  | grp g1 ts hg hts ihg ihts =>
    intro d rest
    have ha : (Tok.lparen :: (g1 ++ Tok.rparen :: ts)) ++ Tok.rparen :: rest
        = Tok.lparen :: (g1 ++ Tok.rparen :: (ts ++ Tok.rparen :: rest)) := by simp
    rw [ha, sta_lp, ihg (d + 1) (ts ++ Tok.rparen :: rest), ihts d rest]
    simp

/-- A plausible invocation argument contributes no top-level comma: the
splitter treats it as an opaque prefix of the first piece. -/
theorem arg_sta (h : ArgToks env a) : ∀ rest, splitTopAux (a ++ rest) 0 =
    (a ++ (splitTopAux rest 0).1, (splitTopAux rest 0).2) := by
  induction h with
  | nil => intro rest; simp
  | id s ts hs ha ih => intro rest; simp [ih rest]
  | lit s ts ha ih => intro rest; simp [ih rest]
  | pu s ts ha ih => intro rest; simp [ih rest]
  | grp g ts hg hpl ha ih =>
    intro rest
    have ha2 : (Tok.lparen :: (g ++ Tok.rparen :: ts)) ++ rest
        = Tok.lparen :: (g ++ Tok.rparen :: (ts ++ rest)) := by simp
    rw [ha2, sta_lp, bal_staS hg 0 (ts ++ rest), ih rest]
    simp

/-- A plausible invocation argument is balanced. -/
theorem argToks_bal (h : ArgToks env a) : Bal a := by
  induction h with
  | nil => exact Bal.nil
  | id s ts hs ha ih => exact Bal.tok _ _ (by simp) (by simp) ih
  | lit s ts ha ih => exact Bal.tok _ _ (by simp) (by simp) ih
  | pu s ts ha ih => exact Bal.tok _ _ (by simp) (by simp) ih
  | grp g ts hg hpl ha ih => exact Bal.grp _ _ hg ih

/-- A plausible invocation argument mentions no macro name. -/
theorem argToks_plain (h : ArgToks env a) : PlainL env a := by
  induction h with
  | nil => intro s hs; simp at hs
  | id s ts hs ha ih =>
    intro u hu
    rcases List.mem_cons.mp hu with h1 | h1
    · cases h1; exact hs
    · exact ih u h1
  | lit s ts ha ih =>
    intro u hu
    rcases List.mem_cons.mp hu with h1 | h1
    · cases h1
    · exact ih u h1
  | pu s ts ha ih =>
    intro u hu
    rcases List.mem_cons.mp hu with h1 | h1
    · cases h1
    · exact ih u h1
  | grp g ts hg hpl ha ih =>
    intro u hu
    rcases List.mem_cons.mp hu with h1 | h1
    · cases h1
    · rcases List.mem_append.mp h1 with h2 | h2
      · exact hpl u h2
      · rcases List.mem_cons.mp h2 with h3 | h3
        · cases h3
        · exact ih u h3

/-- Macro-name-free token sequences are calm. -/
theorem plainL_calm (h : PlainL env ts) : Calm env ts := by
  induction ts with
  | nil => exact Calm.nil
  | cons t ts ih =>
    refine Calm.plain t ts (fun s hs => h s (by rw [hs]; exact List.mem_cons_self _ _)) ?_
    exact ih fun s hs => h s (List.mem_cons_of_mem _ hs)

/-- Prepending macro-name-free tokens preserves calm. -/
theorem calm_append (h1 : PlainL env xs) (h2 : Calm env ys) : Calm env (xs ++ ys) := by
  induction xs with
  | nil => simpa using h2
  | cons t ts ih =>
    refine Calm.plain t (ts ++ ys) (fun s hs => h1 s (by rw [hs]; exact List.mem_cons_self _ _)) ?_
    exact ih fun s hs => h1 s (List.mem_cons_of_mem _ hs)

/-- Expansion is the identity on calm token sequences (given fuel). -/
theorem expand_calm : ∀ f ts, Calm env ts → ts.length < f → expandSeq env f ts = some ts := by
  intro f
  induction f with
  | zero => intro ts h hl; omega
  | succ f ih =>
    intro ts h hl
    cases h with
    | nil => rfl
    | plain t ts2 hpt hc =>
      have hlen : ts2.length < f := by simp at hl; omega
      cases t with
      | ident s =>
        have hnone : envLookup env s = none := hpt s rfl
        cases ts2 with
        | nil => simp [expandSeq, hnone, ih [] Calm.nil hlen]
        | cons t2 ts3 =>
          cases t2 <;> simp [expandSeq, hnone, ih _ hc hlen]
      | str s => simp [expandSeq, ih _ hc hlen]
      | punct s => simp [expandSeq, ih _ hc hlen]
      | lparen => simp [expandSeq, ih _ hc hlen]
      | rparen => simp [expandSeq, ih _ hc hlen]
      | comma => simp [expandSeq, ih _ hc hlen]
    | fname s np variadic repl ts2 hfn hh hc =>
      have hlen : ts2.length < f := by simp at hl; omega
      cases ts2 with
      | nil => simp [expandSeq, hfn, ih [] Calm.nil hlen]
      | cons t2 ts3 =>
        cases t2 with
        | lparen => exact absurd hh (by simp [headNotLP])
        | ident u => simp [expandSeq, hfn, ih _ hc hlen]
        | str u => simp [expandSeq, hfn, ih _ hc hlen]
        | punct u => simp [expandSeq, hfn, ih _ hc hlen]
        | rparen => simp [expandSeq, hfn, ih _ hc hlen]
        | comma => simp [expandSeq, hfn, ih _ hc hlen]

/-! ## Probe computations of the portable classifier -/

theorem plainL_append (h1 : PlainL env xs) (h2 : PlainL env ys) : PlainL env (xs ++ ys) := by
  intro s hs
  rcases List.mem_append.mp hs with h | h
  · exact h1 s h
  · exact h2 s h

theorem plainL_parens : PlainL env [Tok.lparen, Tok.rparen] := by
  intro s hs; simp at hs

theorem plainT_comma : PlainT env Tok.comma := fun _ h => Tok.noConfusion h

theorem headNotLP_append (hne : a ≠ []) (hh : headNotLP a) : headNotLP (a ++ rest) := by
  cases a with
  | nil => exact absurd rfl hne
  | cons t ts => cases t <;> simp_all [headNotLP]

theorem trigLookup :
    envLookup vaEnv "NTRNLVA_TRIGGER_PARENTHESIS_" = some (MacroDef.fn 0 true [Tok.comma]) := by
  decide

theorem cs_zeroTok : NTRNLVA_CHECK_SENTINEL [zeroTok] = 0 := rfl

theorem cs_sentinel : NTRNLVA_CHECK_SENTINEL sentinelToks = 1 := rfl

/-- A calm single-slot sequence has no top-level comma for
`NTRNLVA_HAS_COMMA` to find: the selected third slot is the trailing
`0`. -/
theorem hc_calm_single (hc : Calm vaEnv s) (hsta : splitTopAux s 0 = (s, [])) :
    NTRNLVA_HAS_COMMA vaEnv s = some 0 := by
  have he : expandSeq vaEnv (fuelOf s) s = some s :=
    expand_calm _ _ hc (by simp only [fuelOf]; omega)
  simp [NTRNLVA_HAS_COMMA, he, splitTop, hsta, cs_zeroTok]

/-- Scanning `NTRNLVA_TRIGGER_PARENTHESIS_` directly applied to a
parenthesized group replaces the invocation by a bare comma. -/
theorem exp_trig_grp (hg : Bal g) (hrest : Calm vaEnv rest)
    (hf : g.length + rest.length + 2 < f) :
    expandSeq vaEnv (f + 1) (trigTok :: Tok.lparen :: (g ++ Tok.rparen :: rest)) =
      some (Tok.comma :: rest) := by
  simp only [trigTok, expandSeq, trigLookup, bal_sac0 hg rest, arityOk]
  simp only [decide_True, Nat.zero_le, if_true, List.singleton_append]
  exact expand_calm f (Tok.comma :: rest) (Calm.plain _ _ plainT_comma hrest) (by simp; omega)

/-- Probe tuple of a nonempty plausible argument that does not start
with a parenthesis: all four probes are 0, so the portable base
classifier answers 0. -/
theorem base_plain_nogrp (h : ArgToks vaEnv a) (hne : a ≠ []) (hh : headNotLP a) :
    NTRNLVA_ISEMPTY_BASE vaEnv a = some 0 := by
  have hpa : PlainL vaEnv a := argToks_plain h
  have hca : Calm vaEnv a := plainL_calm hpa
  have hsta1 : splitTopAux a 0 = (a, []) := by simpa using arg_sta h []
  have hc1 : NTRNLVA_HAS_COMMA vaEnv a = some 0 := hc_calm_single hca hsta1
  have hc2 : NTRNLVA_HAS_COMMA vaEnv (trigTok :: a) = some 0 := by
    refine hc_calm_single ?_ ?_
    · exact Calm.fname _ 0 true [Tok.comma] a trigLookup hh hca
    · simp [trigTok, hsta1]
  have hpl3 : PlainL vaEnv (a ++ [Tok.lparen, Tok.rparen]) := plainL_append hpa plainL_parens
  have hsta3 : splitTopAux (a ++ [Tok.lparen, Tok.rparen]) 0 =
      (a ++ [Tok.lparen, Tok.rparen], []) := by
    simpa using arg_sta h [Tok.lparen, Tok.rparen]
  have hc3 : NTRNLVA_HAS_COMMA vaEnv (a ++ [Tok.lparen, Tok.rparen]) = some 0 :=
    hc_calm_single (plainL_calm hpl3) hsta3
  have hc4 : NTRNLVA_HAS_COMMA vaEnv (trigTok :: (a ++ [Tok.lparen, Tok.rparen])) = some 0 := by
    refine hc_calm_single ?_ ?_
    · exact Calm.fname _ 0 true [Tok.comma] _ trigLookup (headNotLP_append hne hh)
        (plainL_calm hpl3)
    · simp [trigTok, hsta3]
  simp [NTRNLVA_ISEMPTY_BASE, hc1, hc2, hc3, hc4]
  decide

/-- Probe tuple of a plausible argument that starts with a parenthesized
group: the trigger probes both fire (0,1,0,1), and the portable base
classifier answers 0. -/
theorem base_grp (hg : Bal g) (hpl : PlainL vaEnv g) (ht : ArgToks vaEnv ts) :
    NTRNLVA_ISEMPTY_BASE vaEnv (Tok.lparen :: (g ++ Tok.rparen :: ts)) = some 0 := by
  have hArg : ArgToks vaEnv (Tok.lparen :: (g ++ Tok.rparen :: ts)) :=
    ArgToks.grp g ts hg hpl ht
  have hpa : PlainL vaEnv (Tok.lparen :: (g ++ Tok.rparen :: ts)) := argToks_plain hArg
  have hsta1 : splitTopAux (Tok.lparen :: (g ++ Tok.rparen :: ts)) 0 =
      (Tok.lparen :: (g ++ Tok.rparen :: ts), []) := by simpa using arg_sta hArg []
  have hc1 : NTRNLVA_HAS_COMMA vaEnv (Tok.lparen :: (g ++ Tok.rparen :: ts)) = some 0 :=
    hc_calm_single (plainL_calm hpa) hsta1
  have hstats : splitTopAux ts 0 = (ts, []) := by simpa using arg_sta ht []
  have hcts : Calm vaEnv ts := plainL_calm (argToks_plain ht)
  have hassoc : (Tok.lparen :: (g ++ Tok.rparen :: ts)) ++ [Tok.lparen, Tok.rparen] =
      Tok.lparen :: (g ++ Tok.rparen :: (ts ++ [Tok.lparen, Tok.rparen])) := by simp
  have hc2 : NTRNLVA_HAS_COMMA vaEnv (trigTok :: (Tok.lparen :: (g ++ Tok.rparen :: ts))) =
      some 1 := by
    have hfuel : fuelOf (trigTok :: (Tok.lparen :: (g ++ Tok.rparen :: ts))) =
        (g.length + ts.length + 67) + 1 := by
      simp only [fuelOf, List.length_cons, List.length_append]; omega
    have hexp : expandSeq vaEnv ((g.length + ts.length + 67) + 1)
        (trigTok :: Tok.lparen :: (g ++ Tok.rparen :: ts)) = some (Tok.comma :: ts) :=
      exp_trig_grp hg hcts (by omega)
    simp only [NTRNLVA_HAS_COMMA, hfuel]
    rw [hexp]
    simp [splitTop, hstats, cs_sentinel]
  have hpl3 : PlainL vaEnv (ts ++ [Tok.lparen, Tok.rparen]) :=
    plainL_append (argToks_plain ht) plainL_parens
  have hsta3 : splitTopAux (ts ++ [Tok.lparen, Tok.rparen]) 0 =
      (ts ++ [Tok.lparen, Tok.rparen], []) := by simpa using arg_sta ht [Tok.lparen, Tok.rparen]
  have hc3 : NTRNLVA_HAS_COMMA vaEnv
      (Tok.lparen :: (g ++ Tok.rparen :: (ts ++ [Tok.lparen, Tok.rparen]))) = some 0 := by
    refine hc_calm_single ?_ ?_
    · rw [← hassoc]; exact plainL_calm (plainL_append hpa plainL_parens)
    · rw [← hassoc]; simpa using arg_sta hArg [Tok.lparen, Tok.rparen]
  have hc4 : NTRNLVA_HAS_COMMA vaEnv
      (trigTok :: Tok.lparen :: (g ++ Tok.rparen :: (ts ++ [Tok.lparen, Tok.rparen]))) =
      some 1 := by
    have hfuel : fuelOf (trigTok :: Tok.lparen ::
        (g ++ Tok.rparen :: (ts ++ [Tok.lparen, Tok.rparen]))) =
        (g.length + ts.length + 69) + 1 := by
      simp only [fuelOf, List.length_cons, List.length_append, List.length_nil]; omega
    have hexp : expandSeq vaEnv ((g.length + ts.length + 69) + 1)
        (trigTok :: Tok.lparen :: (g ++ Tok.rparen :: (ts ++ [Tok.lparen, Tok.rparen]))) =
        some (Tok.comma :: (ts ++ [Tok.lparen, Tok.rparen])) :=
      exp_trig_grp hg (plainL_calm hpl3)
        (by simp only [List.length_append, List.length_cons, List.length_nil]; omega)
    simp only [NTRNLVA_HAS_COMMA, hfuel]
    rw [hexp]
    simp [splitTop, hsta3, cs_sentinel]
  simp [NTRNLVA_ISEMPTY_BASE, hc1, hc2, hc3, hc4]
  decide

theorem base_nil : NTRNLVA_ISEMPTY_BASE vaEnv [] = some 1 := by decide

/-- The portable base classifier on any plausible caller-written
argument: 1 exactly on the empty argument. -/
theorem base_arg (h : ArgToks vaEnv a) :
    NTRNLVA_ISEMPTY_BASE vaEnv a = some (if a = [] then 1 else 0) := by
  cases h with
  | nil => simpa using base_nil
  | id s ts hs ht =>
    rw [if_neg (by simp)]
    exact base_plain_nogrp (ArgToks.id s ts hs ht) (by simp) (by simp [headNotLP])
  | lit s ts ht =>
    rw [if_neg (by simp)]
    exact base_plain_nogrp (ArgToks.lit s ts ht) (by simp) (by simp [headNotLP])
  | pu s ts ht =>
    rw [if_neg (by simp)]
    exact base_plain_nogrp (ArgToks.pu s ts ht) (by simp) (by simp [headNotLP])
  | grp g ts hg hpl ht =>
    rw [if_neg (by simp)]
    exact base_grp hg hpl ht

/-! ## Admissible invocation argument lists

A caller-supplied argument is admissible when it is either a plausible
written argument (`ArgToks`) or the bare name of one of the caller-side
function-like macros of the corpus that the C99 strategy accepts
(everything except `MAC2`, whose two fixed parameters make the `x()`
probe malformed). -/

theorem name_fn (h : s ∈ c99Names) :
    ∃ np variadic repl, envLookup vaEnv s = some (MacroDef.fn np variadic repl) := by
  fin_cases h <;> exact ⟨_, _, _, rfl⟩

theorem base_name (h : s ∈ c99Names) :
    NTRNLVA_ISEMPTY_BASE vaEnv [Tok.ident s] = some 0 := by
  fin_cases h <;> decide

theorem adm_base (h : AdmArg a) (hne : a ≠ []) : NTRNLVA_ISEMPTY_BASE vaEnv a = some 0 := by
  rcases h with h | ⟨s, hs, rfl⟩
  · rw [base_arg h, if_neg hne]
  · exact base_name hs

/-- An admissible argument resolves under the portable base
classifier. -/
theorem adm_base_resolves (h : AdmArg a) : ∃ v, NTRNLVA_ISEMPTY_BASE vaEnv a = some v ∧ v ≤ 1 := by
  rcases h with h | ⟨s, hs, rfl⟩
  · refine ⟨if a = [] then 1 else 0, base_arg h, ?_⟩
    split <;> omega
  · exact ⟨0, base_name hs, by omega⟩

/-- Joined admissible arguments are calm: scanning them expands
nothing. -/
theorem adm_calm : ∀ as, (∀ a ∈ as, AdmArg a) → Calm vaEnv (joinArgs as) := by
  intro as
  induction as with
  | nil => intro h; exact Calm.nil
  | cons a rest ih =>
    intro h
    have ha : AdmArg a := h a (List.mem_cons_self _ _)
    have hrest : ∀ b ∈ rest, AdmArg b := fun b hb => h b (List.mem_cons_of_mem _ hb)
    cases rest with
    | nil =>
      show Calm vaEnv (joinArgs [a])
      rcases ha with ha | ⟨s, hs, rfl⟩
      · exact plainL_calm (argToks_plain ha)
      · obtain ⟨np, v, r, hl⟩ := name_fn hs
        exact Calm.fname s np v r [] hl (by simp [headNotLP]) Calm.nil
    | cons b rest2 =>
      have hj : joinArgs (a :: b :: rest2) = a ++ Tok.comma :: joinArgs (b :: rest2) := rfl
      rw [hj]
      have htail : Calm vaEnv (Tok.comma :: joinArgs (b :: rest2)) :=
        Calm.plain _ _ plainT_comma (ih hrest)
      rcases ha with ha | ⟨s, hs, rfl⟩
      · exact calm_append (argToks_plain ha) htail
      · obtain ⟨np, v, r, hl⟩ := name_fn hs
        exact Calm.fname s np v r _ hl (by simp [headNotLP]) htail

/-- An admissible argument never splits at top level. -/
theorem adm_sta (h : AdmArg a) : ∀ rest, splitTopAux (a ++ rest) 0 =
    (a ++ (splitTopAux rest 0).1, (splitTopAux rest 0).2) := by
  rcases h with h | ⟨s, hs, rfl⟩
  · exact arg_sta h
  · intro rest; simp

/-- Splitting the joined arguments recovers the arguments. -/
theorem adm_split : ∀ as, (∀ a ∈ as, AdmArg a) → as ≠ [] → splitTop (joinArgs as) = as := by
  intro as
  induction as with
  | nil => intro _ h; exact absurd rfl h
  | cons a rest ih =>
    intro h _
    have ha : AdmArg a := h a (List.mem_cons_self _ _)
    have hrest : ∀ b ∈ rest, AdmArg b := fun b hb => h b (List.mem_cons_of_mem _ hb)
    cases rest with
    | nil =>
      have h1 : splitTopAux a 0 = (a, []) := by simpa using adm_sta ha []
      simp [joinArgs, splitTop, h1]
    | cons b rest2 =>
      have hj : joinArgs (a :: b :: rest2) = a ++ Tok.comma :: joinArgs (b :: rest2) := rfl
      have h2 := adm_sta ha (Tok.comma :: joinArgs (b :: rest2))
      have h3 := ih hrest (by simp)
      simp only [splitTop] at h3 ⊢
      rw [hj, h2, sta_comma0]
      simp [h3]

theorem bal_append (h1 : Bal xs) (h2 : Bal ys) : Bal (xs ++ ys) := by
  induction h1 with
  | nil => simpa using h2
  | tok t ts hlp hrp hb ih => exact Bal.tok t _ hlp hrp ih
  | grp g ts hg hts ihg ihts =>
    have hres := Bal.grp g (ts ++ ys) hg ihts
    have ha : (Tok.lparen :: (g ++ Tok.rparen :: ts)) ++ ys
        = Tok.lparen :: (g ++ Tok.rparen :: (ts ++ ys)) := by simp
    rw [ha]
    exact hres

/-- Joined admissible arguments are balanced. -/
theorem adm_bal : ∀ as, (∀ a ∈ as, AdmArg a) → Bal (joinArgs as) := by
  intro as
  induction as with
  | nil => intro _; exact Bal.nil
  | cons a rest ih =>
    intro h
    have ha : AdmArg a := h a (List.mem_cons_self _ _)
    have hrest : ∀ b ∈ rest, AdmArg b := fun b hb => h b (List.mem_cons_of_mem _ hb)
    have hba : Bal a := by
      rcases ha with ha | ⟨s, hs, rfl⟩
      · exact argToks_bal ha
      · exact Bal.tok _ _ (by simp) (by simp) Bal.nil
    cases rest with
    | nil => simpa [joinArgs] using hba
    | cons b rest2 =>
      have hj : joinArgs (a :: b :: rest2) = a ++ Tok.comma :: joinArgs (b :: rest2) := rfl
      rw [hj]
      exact bal_append hba (Bal.tok _ _ (by simp) (by simp) (ih hrest))

/-! ## Classification of admissible argument lists, per strategy -/

/-- Under every strategy, an admissible argument list whose later
arguments are not sentinel-shaped is classified 1 exactly when its
joined token list is empty. -/
theorem isEmpty_adm (as : List (List Tok)) (h1 : ∀ a ∈ as, AdmArg a)
    (h2 : ∀ a ∈ List.drop 1 as, NTRNLVA_CHECK_SENTINEL a = 0) :
    ∀ s, VA_ISEMPTY vaEnv s (joinArgs as) = some (if joinArgs as = [] then 1 else 0) := by
  have hcalm := adm_calm as h1
  have hexp : expandSeq vaEnv (fuelOf (joinArgs as)) (joinArgs as) = some (joinArgs as) :=
    expand_calm _ _ hcalm (by simp only [fuelOf]; omega)
  intro s
  cases s with
  | native =>
    by_cases hj : joinArgs as = [] <;>
      simp [VA_ISEMPTY, VA_ISEMPTY_NATIVE, vaOptProbe, NTRNLVA_ISEMPTY_I_NAT, hj]
  | gnu =>
    simp only [VA_ISEMPTY, VA_ISEMPTY_GNU]
    rw [hexp]
    by_cases hj : joinArgs as = []
    · simp [hj, cs_sentinel]
    · have hne : as ≠ [] := by intro h0; rw [h0] at hj; exact hj rfl
      have hsplit := adm_split as h1 hne
      cases as with
      | nil => exact absurd rfl hne
      | cons a rest =>
        cases rest with
        | nil => simp [hj, hsplit, cs_zeroTok]
        | cons b rest2 => simp [hj, hsplit, h2 b (by simp)]
  | msvc =>
    simp only [VA_ISEMPTY, VA_ISEMPTY_MSVC]
    rw [hexp]
    by_cases hj : joinArgs as = []
    · simp [hj, cs_sentinel]
    · have hne : as ≠ [] := by intro h0; rw [h0] at hj; exact hj rfl
      have hsplit := adm_split as h1 hne
      cases as with
      | nil => exact absurd rfl hne
      | cons a rest =>
        cases rest with
        | nil => simp [hj, hsplit, cs_zeroTok]
        | cons b rest2 => simp [hj, hsplit, h2 b (by simp)]
  | c99 =>
    simp only [VA_ISEMPTY, VA_ISEMPTY_C99]
    rw [hexp]
    by_cases hj : joinArgs as = []
    · rw [hj]
      simp [splitTop, base_nil, cs_sentinel, NTRNLVA_AND]
    · have hne : as ≠ [] := by intro h0; rw [h0] at hj; exact hj rfl
      have hsplit := adm_split as h1 hne
      cases as with
      | nil => exact absurd rfl hne
      | cons a rest =>
        have hadm : AdmArg a := h1 a (List.mem_cons_self _ _)
        cases rest with
        | nil =>
          have hane : a ≠ [] := by
            intro h0; rw [show joinArgs [a] = a from rfl, h0] at hj; exact hj rfl
          simp [hj, hsplit, adm_base hadm hane, cs_sentinel, NTRNLVA_AND]
        | cons b rest2 =>
          obtain ⟨v, hv, hvle⟩ := adm_base_resolves hadm
          have hcsb : NTRNLVA_CHECK_SENTINEL b = 0 := h2 b (by simp)
          interval_cases v <;> simp [hsplit, hv, hcsb, hj, NTRNLVA_AND]

/-- `NTRNLVA_CHECK_SENTINEL` is boolean. -/
theorem cs_le_one (x : List Tok) : NTRNLVA_CHECK_SENTINEL x ≤ 1 := by
  unfold NTRNLVA_CHECK_SENTINEL
  cases ((stripGroup x).bind stripGroup).bind stripGroup <;> simp

/-- Every resolved classification is boolean, under every strategy. -/
theorem isEmpty_le (s : Strategy) (L : List Tok) (b : Nat)
    (h : VA_ISEMPTY vaEnv s L = some b) : b ≤ 1 := by
  cases s with
  | native =>
    simp only [VA_ISEMPTY, VA_ISEMPTY_NATIVE, vaOptProbe, NTRNLVA_ISEMPTY_I_NAT] at h
    by_cases hl : L = [] <;> simp [hl] at h <;> omega
  | gnu =>
    simp only [VA_ISEMPTY, VA_ISEMPTY_GNU] at h
    cases hexp : expandSeq vaEnv (fuelOf L) L with
    | none => rw [hexp] at h; simp at h
    | some e =>
      rw [hexp] at h
      simp at h
      rw [← h]
      exact cs_le_one _
  | msvc =>
    simp only [VA_ISEMPTY, VA_ISEMPTY_MSVC] at h
    cases hexp : expandSeq vaEnv (fuelOf L) L with
    | none => rw [hexp] at h; simp at h
    | some e =>
      rw [hexp] at h
      simp at h
      rw [← h]
      exact cs_le_one _
  | c99 =>
    simp only [VA_ISEMPTY, VA_ISEMPTY_C99, Option.bind_eq_bind] at h
    rw [Option.bind_eq_some] at h
    obtain ⟨e, hexp, h⟩ := h
    rw [Option.bind_eq_some] at h
    obtain ⟨v, hbase, h⟩ := h
    simp only [NTRNLVA_AND] at h
    by_cases hv0 : v = 0
    · simp [hv0] at h; omega
    · by_cases hv1 : v = 1
      · simp [hv0, hv1] at h
        rw [← h]
        exact cs_le_one _
      · simp [hv0, hv1] at h

/-- Under every strategy, `VA_NOTEMPTY` of an admissible argument list
is the complement of the classification. -/
theorem notEmpty_adm (as : List (List Tok)) (h1 : ∀ a ∈ as, AdmArg a)
    (h2 : ∀ a ∈ List.drop 1 as, NTRNLVA_CHECK_SENTINEL a = 0) :
    ∀ s, VA_NOTEMPTY vaEnv s (joinArgs as) = some (if joinArgs as = [] then 0 else 1) := by
  intro s
  cases s with
  | native =>
    by_cases hj : joinArgs as = [] <;>
      simp [VA_NOTEMPTY, vaOptProbe, NTRNLVA_NOTEMPTY_I_NAT, hj]
  | gnu =>
    have h := isEmpty_adm as h1 h2 Strategy.gnu
    simp only [VA_NOTEMPTY]
    rw [h]
    by_cases hj : joinArgs as = [] <;> simp [hj, NTRNLVA_COMPL]
  | msvc =>
    have h := isEmpty_adm as h1 h2 Strategy.msvc
    simp only [VA_NOTEMPTY]
    rw [h]
    by_cases hj : joinArgs as = [] <;> simp [hj, NTRNLVA_COMPL]
  | c99 =>
    have h := isEmpty_adm as h1 h2 Strategy.c99
    simp only [VA_NOTEMPTY]
    rw [h]
    by_cases hj : joinArgs as = [] <;> simp [hj, NTRNLVA_COMPL]

/-- Unwrapping a parenthesized balanced guard list recovers it. -/
theorem up_wrap (hb : Bal X) :
    NTRNLVA_UP (Tok.lparen :: (X ++ [Tok.rparen])) = some X := by
  have h : X ++ [Tok.rparen] = X ++ Tok.rparen :: [] := rfl
  simp [NTRNLVA_UP, h, bal_sac0 hb []]

/-! ## The sentinel shape -/

theorem stripGroup_eq_some (h : stripGroup x = some r) :
    ∃ g, x = Tok.lparen :: (g ++ Tok.rparen :: r) := by
  cases x with
  | nil => simp [stripGroup] at h
  | cons t ts =>
    cases t with
    | lparen =>
      simp only [stripGroup] at h
      cases hsac : splitAtClose ts 0 with
      | none => rw [hsac] at h; simp at h
      | some p =>
        rw [hsac] at h
        simp at h
        refine ⟨p.1, ?_⟩
        rw [show ts = p.1 ++ Tok.rparen :: p.2 from sac_decomp ts 0 p.1 p.2 (by rw [hsac]), h]
    | ident s => simp [stripGroup] at h
    | str s => simp [stripGroup] at h
    | punct s => simp [stripGroup] at h
    | rparen => simp [stripGroup] at h
    | comma => simp [stripGroup] at h

/-- A sequence on which the sentinel detector fires begins with three
parenthesized groups. -/
theorem cs_one_three (h : NTRNLVA_CHECK_SENTINEL x = 1) : ThreeLeadGroups x := by
  unfold NTRNLVA_CHECK_SENTINEL at h
  cases hc : ((stripGroup x).bind stripGroup).bind stripGroup with
  | none => rw [hc] at h; simp at h
  | some r =>
    rw [Option.bind_eq_some] at hc
    obtain ⟨r2, hc2, hc3⟩ := hc
    rw [Option.bind_eq_some] at hc2
    obtain ⟨r1, hc1, hc2⟩ := hc2
    obtain ⟨g1, hx1⟩ := stripGroup_eq_some hc1
    obtain ⟨g2, hx2⟩ := stripGroup_eq_some hc2
    obtain ⟨g3, hx3⟩ := stripGroup_eq_some hc3
    rw [hx2, hx3] at hx1
    exact ⟨g1, g2, g3, r, hx1⟩

/-! ## The claims -/

/-- C1: for every admissible token list (arguments drawn from the
plausible caller domain: plausible written arguments or corpus macro
names the portable strategy accepts, with later arguments not
sentinel-shaped), the portable C99 classifier `VA_ISEMPTY` resolves and
returns 1 exactly when the list consists of zero tokens; otherwise it
returns 0.  A list of whitespace or comments only lexes to zero
tokens. -/
theorem c1_portable_isempty_iff_zero_tokens (as : List (List Tok))
    (h1 : ∀ a ∈ as, AdmArg a)
    (h2 : ∀ a ∈ List.drop 1 as, NTRNLVA_CHECK_SENTINEL a = 0) :
    VA_ISEMPTY vaEnv Strategy.c99 (joinArgs as) =
      some (if joinArgs as = [] then 1 else 0) :=
  isEmpty_adm as h1 h2 Strategy.c99

theorem c1_portable_isempty_iff_zero_tokens_witness :
    VA_ISEMPTY vaEnv Strategy.c99 (joinArgs [[Tok.ident "a"], [Tok.ident "b"]]) = some 0 ∧
    VA_ISEMPTY vaEnv Strategy.c99 (joinArgs ([] : List (List Tok))) = some 1 := by
  constructor
  · have h := c1_portable_isempty_iff_zero_tokens [[Tok.ident "a"], [Tok.ident "b"]]
      (by
        intro a ha
        simp at ha
        rcases ha with rfl | rfl
        · exact Or.inl (ArgToks.id _ _ (by decide) ArgToks.nil)
        · exact Or.inl (ArgToks.id _ _ (by decide) ArgToks.nil))
      (by intro a ha; simp at ha; subst ha; decide)
    simpa [joinArgs] using h
  · have h := c1_portable_isempty_iff_zero_tokens []
      (by intro a ha; simp at ha) (by intro a ha; simp at ha)
    simpa [joinArgs] using h

/-- C2 counterexample: the combination (0,0,1,1) named by the claim is
pasted to the undefined token `NTRNLVA_IS_EMPTY_CASE_0011` and reduces
to 0, not 1; the combination the dispatch maps to 1 is (0,0,0,1), whose
pasted key `NTRNLVA_IS_EMPTY_CASE_0001` is the one defined case
macro. -/
theorem c2_claimed_combination_reduces_to_zero :
    NTRNLVA_ISEMPTY_BASE_I vaEnv 0 0 1 1 = some 0 ∧
    NTRNLVA_ISEMPTY_BASE_I vaEnv 0 0 0 1 = some 1 := by decide

/-- C2 (amended): the token-pasting reduction of the four probe results
maps exactly the single combination (0,0,0,1) to Classification 1 and
every one of the other 15 boolean combinations to 0. -/
theorem c2_reduce_table (b1 b2 b3 b4 : Bool) :
    NTRNLVA_ISEMPTY_BASE_I vaEnv (cond b1 1 0) (cond b2 1 0) (cond b3 1 0) (cond b4 1 0) =
      some (if b1 = false ∧ b2 = false ∧ b3 = false ∧ b4 = true then 1 else 0) := by
  cases b1 <;> cases b2 <;> cases b3 <;> cases b4 <;> decide

/-- C3: `VA_NOPT` applied to a parenthesized admissible guard list and a
payload emits exactly the payload when the guard list is empty and
emits nothing when it is nonempty, for any payload, including payloads
with top-level commas. -/
theorem c3_select_on_emptiness (s : Strategy) (as : List (List Tok)) (payload : List Tok)
    (h1 : ∀ a ∈ as, AdmArg a)
    (h2 : ∀ a ∈ List.drop 1 as, NTRNLVA_CHECK_SENTINEL a = 0) :
    VA_NOPT vaEnv s (Tok.lparen :: (joinArgs as ++ [Tok.rparen])) payload =
      some (if joinArgs as = [] then payload else []) := by
  simp only [VA_NOPT, Option.bind_eq_bind]
  rw [up_wrap (adm_bal as h1)]
  simp only [Option.some_bind]
  rw [notEmpty_adm as h1 h2 s]
  by_cases hj : joinArgs as = [] <;> simp [hj, NTRNLVA_OPT_IMPL]

theorem c3_select_on_emptiness_witness :
    VA_NOPT vaEnv Strategy.c99 [Tok.lparen, Tok.rparen]
        [Tok.ident "x", Tok.comma, Tok.ident "y"] =
      some [Tok.ident "x", Tok.comma, Tok.ident "y"] ∧
    VA_NOPT vaEnv Strategy.c99 [Tok.lparen, Tok.ident "a", Tok.rparen]
        [Tok.ident "x", Tok.comma, Tok.ident "y"] = some [] := by
  constructor
  · have h := c3_select_on_emptiness Strategy.c99 [] [Tok.ident "x", Tok.comma, Tok.ident "y"]
      (by intro a ha; simp at ha) (by intro a ha; simp at ha)
    simpa [joinArgs] using h
  · have h := c3_select_on_emptiness Strategy.c99 [[Tok.ident "a"]]
      [Tok.ident "x", Tok.comma, Tok.ident "y"]
      (by
        intro a ha
        simp at ha
        subst ha
        exact Or.inl (ArgToks.id _ _ (by decide) ArgToks.nil))
      (by intro a ha; simp at ha)
    simpa [joinArgs] using h

/-- C4: under every one of the four strategies, whenever `VA_ISEMPTY`
resolves to a classification, `VA_NOTEMPTY` resolves to its boolean
complement. -/
theorem c4_notempty_is_complement (s : Strategy) (L : List Tok) (b : Nat)
    (h : VA_ISEMPTY vaEnv s L = some b) :
    VA_NOTEMPTY vaEnv s L = some (1 - b) := by
  have hle := isEmpty_le s L b h
  cases s with
  | native =>
    simp only [VA_ISEMPTY, VA_ISEMPTY_NATIVE, vaOptProbe, NTRNLVA_ISEMPTY_I_NAT] at h
    by_cases hl : L = []
    · simp [hl] at h
      subst h
      simp [VA_NOTEMPTY, vaOptProbe, NTRNLVA_NOTEMPTY_I_NAT, hl]
    · simp [hl] at h
      subst h
      simp [VA_NOTEMPTY, vaOptProbe, NTRNLVA_NOTEMPTY_I_NAT, hl]
  | gnu =>
    simp only [VA_NOTEMPTY]
    rw [h]
    interval_cases b <;> simp [NTRNLVA_COMPL]
  | msvc =>
    simp only [VA_NOTEMPTY]
    rw [h]
    interval_cases b <;> simp [NTRNLVA_COMPL]
  | c99 =>
    simp only [VA_NOTEMPTY]
    rw [h]
    interval_cases b <;> simp [NTRNLVA_COMPL]

theorem c4_notempty_is_complement_witness :
    VA_NOTEMPTY vaEnv Strategy.c99 [] = some (1 - 1) ∧
    VA_NOTEMPTY vaEnv Strategy.gnu [Tok.ident "a"] = some (1 - 0) := by
  exact ⟨c4_notempty_is_complement Strategy.c99 [] 1 (by decide),
    c4_notempty_is_complement Strategy.gnu [Tok.ident "a"] 0 (by decide)⟩

/-- C5: on every admissible token list (a list the portable strategy
accepts), all four strategies produce the same classification. -/
theorem c5_cross_strategy_agreement (as : List (List Tok))
    (h1 : ∀ a ∈ as, AdmArg a)
    (h2 : ∀ a ∈ List.drop 1 as, NTRNLVA_CHECK_SENTINEL a = 0)
    (s1 s2 : Strategy) :
    VA_ISEMPTY vaEnv s1 (joinArgs as) = VA_ISEMPTY vaEnv s2 (joinArgs as) := by
  rw [isEmpty_adm as h1 h2 s1, isEmpty_adm as h1 h2 s2]

theorem c5_cross_strategy_agreement_witness :
    VA_ISEMPTY vaEnv Strategy.c99 (joinArgs [[Tok.ident "MAC0"]]) =
      VA_ISEMPTY vaEnv Strategy.native (joinArgs [[Tok.ident "MAC0"]]) :=
  c5_cross_strategy_agreement [[Tok.ident "MAC0"]]
    (by
      intro a ha
      simp at ha
      subst ha
      exact Or.inr ⟨"MAC0", by decide, rfl⟩)
    (by intro a ha; simp at ha)
    Strategy.c99 Strategy.native

/-- C6: a single-token list whose one token names a zero-argument macro
that itself expands to parentheses (`MAC0`) or to a comma (`MAC0C`) is
classified 0 under every strategy: the classifier judges the invocation
argument as written, not the expansion of the macro. -/
theorem c6_macro_name_classified_as_written (s : Strategy) :
    VA_ISEMPTY vaEnv s [Tok.ident "MAC0"] = some 0 ∧
    VA_ISEMPTY vaEnv s [Tok.ident "MAC0C"] = some 0 := by
  cases s <;> exact ⟨by decide, by decide⟩

/-- C7: a list containing a non-pasteable quoted string literal is
classified 0 under every strategy, and the classification resolves
(`some`, never `none`): in the model every token paste —
`NTRNLVA_PASTE5` in `pasteCase` and the `NTRNLVA_AND`/`NTRNLVA_COMPL`
dispatches — is applied only to the numeric probe results, never to the
tokens of the caller, so no paste failure can arise from them. -/
theorem c7_string_literal_safe (s : Strategy) :
    VA_ISEMPTY vaEnv s [Tok.str "unpastable"] = some 0 ∧
    VA_ISEMPTY vaEnv s (joinArgs
      [[Tok.punct "+"], [Tok.str "many"], [Tok.str "unpastable"], [Tok.str "tokens"],
       [Tok.punct "+"], [Tok.punct "+"], [Tok.punct "+"], [Tok.punct "+"],
       [Tok.punct "+"], [Tok.punct "+"], [Tok.punct "+"], [Tok.punct "+"],
       [Tok.punct "+"], [Tok.punct "+"], [Tok.punct "+"], [Tok.punct "+"]]) = some 0 := by
  cases s <;> exact ⟨by decide, by decide⟩

/-- C8: a first argument naming the two-fixed-parameter macro `MAC2`
fails to resolve (a compile-time non-expansion: the `x()` probe is a
malformed invocation) under the portable C99 strategy only; the
native, GNU and MSVC strategies classify the same input 0. -/
theorem c8_mac2_resolution_by_strategy :
    VA_ISEMPTY vaEnv Strategy.c99 [Tok.ident "MAC2"] = none ∧
    VA_ISEMPTY vaEnv Strategy.native [Tok.ident "MAC2"] = some 0 ∧
    VA_ISEMPTY vaEnv Strategy.gnu [Tok.ident "MAC2"] = some 0 ∧
    VA_ISEMPTY vaEnv Strategy.msvc [Tok.ident "MAC2"] = some 0 := by decide

/-- C9 counterexample: the sentinel shape is not disjoint from the
domain of the caller.  The chained-group sequence `(a)(b)(c)` is a
plausible caller-written argument (`ArgToks`) — real C spells it as
chained calls or casts — yet the sentinel detector fires on it, and the
classifiers misclassify nonempty argument lists that carry such an
argument in the checked slot: `VA_ISEMPTY(a, (a)(b)(c))` yields 1
under the GNU strategy and `VA_ISEMPTY(, (a)(b)(c))` yields 1 under
the portable C99 strategy. -/
theorem c9_sentinel_collision :
    ArgToks vaEnv [Tok.lparen, Tok.ident "a", Tok.rparen, Tok.lparen, Tok.ident "b",
      Tok.rparen, Tok.lparen, Tok.ident "c", Tok.rparen] ∧
    NTRNLVA_CHECK_SENTINEL [Tok.lparen, Tok.ident "a", Tok.rparen, Tok.lparen, Tok.ident "b",
      Tok.rparen, Tok.lparen, Tok.ident "c", Tok.rparen] = 1 ∧
    VA_ISEMPTY vaEnv Strategy.gnu (joinArgs [[Tok.ident "a"],
      [Tok.lparen, Tok.ident "a", Tok.rparen, Tok.lparen, Tok.ident "b", Tok.rparen,
       Tok.lparen, Tok.ident "c", Tok.rparen]]) = some 1 ∧
    VA_ISEMPTY vaEnv Strategy.c99 (joinArgs [[],
      [Tok.lparen, Tok.ident "a", Tok.rparen, Tok.lparen, Tok.ident "b", Tok.rparen,
       Tok.lparen, Tok.ident "c", Tok.rparen]]) = some 1 := by
  refine ⟨?_, by decide, by decide, by decide⟩
  have hba : Bal [Tok.ident "a"] := Bal.tok _ _ (by simp) (by simp) Bal.nil
  have hbb : Bal [Tok.ident "b"] := Bal.tok _ _ (by simp) (by simp) Bal.nil
  have hbc : Bal [Tok.ident "c"] := Bal.tok _ _ (by simp) (by simp) Bal.nil
  have hpa : PlainL vaEnv [Tok.ident "a"] := by intro s hs; simp at hs; subst hs; decide
  have hpb : PlainL vaEnv [Tok.ident "b"] := by intro s hs; simp at hs; subst hs; decide
  have hpc : PlainL vaEnv [Tok.ident "c"] := by intro s hs; simp at hs; subst hs; decide
  exact ArgToks.grp [Tok.ident "a"] _ hba hpa
    (ArgToks.grp [Tok.ident "b"] _ hbb hpb
      (ArgToks.grp [Tok.ident "c"] [] hbc hpc ArgToks.nil))

/-- C9 (amended): the sentinel detector fires on the reserved pattern
`()()()`, and only on token sequences that begin with three
parenthesized groups (`ThreeLeadGroups`): every sequence not of that
shape yields 0.  The shape is not disjoint from the domain of the
caller — a caller-written argument may itself begin with three groups
(see the counterexample) — so the guarantee holds exactly for caller
arguments that avoid that shape, which is what the classifier theorems
assume of the checked argument slots. -/
theorem c9_sentinel_fires_only_on_three_groups :
    NTRNLVA_CHECK_SENTINEL sentinelToks = 1 ∧
    ∀ x, ¬ ThreeLeadGroups x → NTRNLVA_CHECK_SENTINEL x = 0 := by
  refine ⟨cs_sentinel, ?_⟩
  intro x hx
  by_contra hne
  have h1 : NTRNLVA_CHECK_SENTINEL x = 1 := by
    have := cs_le_one x
    omega
  exact hx (cs_one_three h1)

theorem c9_sentinel_fires_only_on_three_groups_witness :
    NTRNLVA_CHECK_SENTINEL sentinelToks = 1 ∧
    NTRNLVA_CHECK_SENTINEL [Tok.ident "a"] = 0 := by
  refine ⟨c9_sentinel_fires_only_on_three_groups.1,
    c9_sentinel_fires_only_on_three_groups.2 [Tok.ident "a"] ?_⟩
  rintro ⟨g1, g2, g3, rest, h⟩
  simp at h

/-- C10 counterexample: the three-argument list `a, b, c` contains two
top-level commas (three argument slots), yet `NTRNLVA_HAS_COMMA`
returns 0 on it: the selected third slot is the token `c` of the caller, not the
appended sentinel, so the claimed "1 iff at least one top-level comma"
fails. -/
theorem c10_hascomma_three_args_zero :
    NTRNLVA_HAS_COMMA vaEnv
      [Tok.ident "a", Tok.comma, Tok.ident "b", Tok.comma, Tok.ident "c"] = some 0 ∧
    (splitTop [Tok.ident "a", Tok.comma, Tok.ident "b", Tok.comma, Tok.ident "c"]).length
      = 3 := by decide

/-- C10 (amended): for admissible argument lists of any length with no
sentinel-shaped argument, `NTRNLVA_HAS_COMMA` returns 1 exactly when
the list has exactly two argument slots (exactly one top-level comma):
the third slot of the extended list is the appended sentinel precisely
then; with three or more slots the selected slot is a caller argument
and the result is 0, while remaining well defined (0 or 1) for
unlimited trailing arguments. -/
theorem c10_hascomma_third_slot (as : List (List Tok))
    (h1 : ∀ a ∈ as, AdmArg a)
    (h2 : ∀ a ∈ as, NTRNLVA_CHECK_SENTINEL a = 0) :
    NTRNLVA_HAS_COMMA vaEnv (joinArgs as) = some (if as.length = 2 then 1 else 0) := by
  have hcalm := adm_calm as h1
  have hexp : expandSeq vaEnv (fuelOf (joinArgs as)) (joinArgs as) = some (joinArgs as) :=
    expand_calm _ _ hcalm (by simp only [fuelOf]; omega)
  simp only [NTRNLVA_HAS_COMMA]
  rw [hexp]
  cases as with
  | nil => simp [joinArgs, splitTop, cs_zeroTok]
  | cons a rest =>
    have hsplit := adm_split (a :: rest) h1 (by simp)
    cases rest with
    | nil => simp [hsplit, cs_zeroTok]
    | cons b rest2 =>
      cases rest2 with
      | nil => simp [hsplit, cs_sentinel]
      | cons c rest3 => simp [hsplit, h2 c (by simp)]

theorem c10_hascomma_third_slot_witness :
    NTRNLVA_HAS_COMMA vaEnv (joinArgs [[Tok.ident "a"], [Tok.ident "b"]]) = some 1 := by
  have h := c10_hascomma_third_slot [[Tok.ident "a"], [Tok.ident "b"]]
    (by
      intro a ha
      simp at ha
      rcases ha with rfl | rfl
      · exact Or.inl (ArgToks.id _ _ (by decide) ArgToks.nil)
      · exact Or.inl (ArgToks.id _ _ (by decide) ArgToks.nil))
    (by intro a ha; simp at ha; rcases ha with rfl | rfl <;> decide)
  simpa using h

end VAOpt
